import Mathlib

/-!
Verification development for the streaming embedding pipeline
(`src/agents/embedding_agent.py`, `src/agents/database_agent.py`,
`src/agents/orchestrator.py`, `src/utils/checkpoint.py`).

Shallow embedding conventions:
* The `LRUCache` built on `OrderedDict` is a list of key/value pairs kept in
  recency order: the head is the least-recently-used entry, the last element
  the most-recently-used one (`move_to_end` appends at the back,
  `popitem(last=False)` drops the head).
* External collaborators (the LangChain text splitter, the Gemini embedding
  API, the ChromaDB `collection.add` call) are parameters: a splitter
  function, an attempt-indexed API oracle returning `Except`, and a store
  function returning `Except`.
* Logging, statistics counters and the pickle/JSON byte formats are elided;
  persistence is modelled by an explicit file-state value.
-/

namespace EmbDB

abbrev Key := String

/-- An embedding vector (`list[float]` in the source; the claims never use
field arithmetic, so entries are modelled as integers). -/
abbrev Vec := List Int

/-- The `LRUCache.cache` ordered dictionary: recency-ordered association
list, head = least recently used. -/
abbrev Cache := List (Key × Vec)

/-- The keys of a cache state, in recency order. -/
def keysOf (c : Cache) : List Key := c.map Prod.fst

/-- `LRUCache.get` (embedding_agent.py:25-38): on a hit the entry is moved
to the most-recently-used end (`move_to_end`) and its value returned; on a
miss the cache is untouched and `None` is returned. -/
def cacheGet (c : Cache) (k : Key) : Option Vec × Cache :=
  match c.find? (fun p => p.1 == k) with
  | some p => (some p.2, (c.filter (fun q => !(q.1 == k))) ++ [p])
  | none => (none, c)

/-- `LRUCache.put` (embedding_agent.py:40-56): an existing key is only moved
to the end (the stored value is NOT replaced — the source's `move_to_end`
branch never assigns); a new key is appended and, if the size now exceeds
`max_size`, the oldest entry (`popitem(last=False)`) is dropped. -/
def cachePut (maxSize : Nat) (k : Key) (v : Vec) (c : Cache) : Cache :=
  if (c.find? (fun p => p.1 == k)).isSome then
    (cacheGet c k).2
  else
    let c' := c ++ [(k, v)]
    if maxSize < c'.length then c'.tail else c'

/-- One observable operation on the embedding cache. -/
inductive CacheOp
  | put (k : Key) (v : Vec)
  | get (k : Key)

/-- Apply one cache operation (the state change of `put` / `get`). -/
def applyOp (maxSize : Nat) (c : Cache) : CacheOp → Cache
  | .put k v => cachePut maxSize k v c
  | .get k => (cacheGet c k).2

/-- Run a sequence of cache operations from a starting state. -/
def runOps (maxSize : Nat) (ops : List CacheOp) (c : Cache) : Cache :=
  ops.foldl (applyOp maxSize) c

/-- Python `str.strip()`: remove leading and trailing whitespace from the
chunk text (used by the minimum-length check in `_chunk_text`). -/
def pyStrip (s : String) : String :=
  String.mk (((s.toList.dropWhile Char.isWhitespace).reverse.dropWhile
    Char.isWhitespace).reverse)

/-- Processing status of a `DocumentData` (base_agent.py:101). -/
inductive Status
  | pending
  | completed
  | failed
deriving DecidableEq

/-- A chunk dictionary built by `EmbeddingAgent._chunk_text`
(embedding_agent.py:257-268).  The metadata copy is elided (no claim reads
it); `embedding = none` models the `'embedding'` key being absent, as it is
until `process` attaches vectors. -/
structure Chunk where
  text : String
  chunkIndex : Nat
  charCount : Nat
  tokenCount : Nat
  embedding : Option Vec := none
deriving DecidableEq

/-- The chunk-object loop of `EmbeddingAgent._chunk_text`
(embedding_agent.py:250-270): enumerate the splitter's output, skip chunks
whose stripped length is below `min_chunk_size`, and record the enumeration
index as `chunk_index`.  `tokenCount` uses the in-repo fallback
`len(text) // 4` of `_count_tokens` (the tiktoken path is an external
library). -/
def chunkText (minChunkSize : Nat) (textChunks : List String) : List Chunk :=
  ((textChunks.enum).filter
      (fun it => !(decide ((pyStrip it.2).length < minChunkSize)))).map
    (fun it =>
      { text := it.2
        chunkIndex := it.1
        charCount := it.2.length
        tokenCount := it.2.length / 4 })

/-- A `DocumentData` record (base_agent.py:74-105) restricted to the fields
the pipeline claims read: the source path key, extracted content, chunks,
embeddings, processing status and error list.  `embeddings` entries are
`Option Vec` because `_generate_embeddings` places `None` placeholders in
its batch lists (embedding_agent.py:344). -/
structure Doc where
  key : String
  content : Option String
  chunks : List Chunk := []
  embeddings : List (Option Vec) := []
  status : Status := .pending
  errors : List String := []
deriving DecidableEq

/-- Error classes distinguished by `_generate_embeddings`' except branch
(embedding_agent.py:379-405): rate-limit/quota signatures vs. everything
else.  Both classes retry with the same backoff and bound. -/
inductive ApiErr
  | rateLimit
  | other
deriving DecidableEq

/-- The Gemini `embed_content` collaborator: for request-group `g` and
attempt number `a`, the call either returns a vector list or raises. -/
abbrev Oracle := Nat → Nat → Except ApiErr (List Vec)

/-- The retry loop body of `_generate_embeddings`
(embedding_agent.py:353-405), recursing on the remaining `range(max_retries)`
iterations.  `a` is the current `retry` counter, `d` the current
`retry_delay` (1.0 doubling; modelled in whole units).  The result is
(`some` vectors on success | `none` on exhaustion, number of attempts made,
delays slept between attempts).  The error branch treats rate-limit and
other errors identically: sleep and double unless this was the last
attempt, in which case the stage returns its accumulated results. -/
def retryGo (oracle : Nat → Except ApiErr (List Vec)) :
    Nat → Nat → Nat → Option (List Vec) × Nat × List Nat
  | _, _, 0 => (none, 0, [])
  | a, d, rem + 1 =>
    match oracle a with
    | .ok vs => (some vs, 1, [])
    | .error _ =>
      if rem = 0 then (none, 1, [])
      else
        let r := retryGo oracle (a + 1) (d * 2) rem
        (r.1, r.2.1 + 1, d :: r.2.2)

/-- The full retry loop: `for retry in range(max_retries)` with
`retry_delay = 1.0`. -/
def retryGroup (oracle : Nat → Except ApiErr (List Vec)) (maxRetries : Nat) :
    Option (List Vec) × Nat × List Nat :=
  retryGo oracle 0 1 maxRetries

/-- The cache-scan loop of `_generate_embeddings`
(embedding_agent.py:334-345): classify each text of a request group against
the cache, producing the `batch_embeddings` list (with `none` placeholders
for misses), the `uncached` texts paired with their in-group indices, and
the cache state after the `get` calls (hits are promoted). -/
def scanBatch (hash : String → Key) :
    List String → Nat → Cache → List (Option Vec) × List (String × Nat) × Cache
  | [], _, c => ([], [], c)
  | t :: ts, j, c =>
    match cacheGet c (hash t) with
    | (some v, c') =>
      let r := scanBatch hash ts (j + 1) c'
      (some v :: r.1, r.2.1, r.2.2)
    | (none, c') =>
      let r := scanBatch hash ts (j + 1) c'
      (none :: r.1, (t, j) :: r.2.1, r.2.2)

/-- The cache-and-insert loop after a successful API call
(embedding_agent.py:365-368): `zip(uncached_texts, new_embeddings,
uncached_indices)` — each new vector is `put` into the cache and written
into `batch_embeddings` at its recorded index.  Python's `zip` truncation is
modelled by zipping before the call. -/
def applyNew (maxSize : Nat) (hash : String → Key) :
    List ((String × Nat) × Vec) → Cache → List (Option Vec) →
      Cache × List (Option Vec)
  | [], c, bes => (c, bes)
  | (tj, v) :: rest, c, bes =>
    applyNew maxSize hash rest (cachePut maxSize (hash tj.1) v c)
      (bes.set tj.2 (some v))

/-- The outer group loop of `_generate_embeddings`
(embedding_agent.py:326-409).  For each request group: scan the cache; if
nothing is uncached, keep the hits; otherwise run the retry loop.  A success
caches and inserts the new vectors and continues; an exhausted retry loop
(at least one attempt was made) returns `all_embeddings` — here: the
accumulation stops, so the total result is exactly the completed groups'
lists.  With `max_retries = 0` the loop body never runs and the code falls
through, keeping the `None` placeholders. -/
def genGroups (hash : String → Key) (maxSize maxRetries : Nat)
    (oracle : Oracle) :
    List (List String) → Nat → Cache → List (Option Vec) × Cache
  | [], _, c => ([], c)
  | batch :: rest, g, c =>
    let s := scanBatch hash batch 0 c
    if s.2.1.isEmpty then
      let r := genGroups hash maxSize maxRetries oracle rest (g + 1) s.2.2
      (s.1 ++ r.1, r.2)
    else
      match retryGroup (fun a => oracle g a) maxRetries with
      | (some vs, _, _) =>
        let an := applyNew maxSize hash (s.2.1.zip vs) s.2.2 s.1
        let r := genGroups hash maxSize maxRetries oracle rest (g + 1) an.1
        (an.2 ++ r.1, r.2)
      | (none, 0, _) =>
        let r := genGroups hash maxSize maxRetries oracle rest (g + 1) s.2.2
        (s.1 ++ r.1, r.2)
      | (none, _ + 1, _) => ([], s.2.2)

/-- Structural worker for `toBatches`; `fuel` bounds the recursion depth
(any value at least the list length gives the slicing). -/
def toBatchesGo : Nat → Nat → List α → List (List α)
  | 0, _, _ => []
  | _ + 1, _, [] => []
  | _ + 1, 0, _ :: _ => []
  | fuel + 1, n + 1, x :: xs =>
    (x :: xs.take n) :: toBatchesGo fuel (n + 1) (xs.drop n)

/-- `for i in range(0, len(texts), batch_size)`: slice a list into
consecutive groups of `batchSize` (the last may be shorter). -/
def toBatches (n : Nat) (l : List α) : List (List α) :=
  toBatchesGo l.length n l

/-- `EmbeddingAgent._generate_embeddings` (embedding_agent.py:309-409). -/
def genEmbeddings (hash : String → Key) (maxSize maxRetries batchSize : Nat)
    (oracle : Oracle) (texts : List String) (c : Cache) :
    List (Option Vec) × Cache :=
  genGroups hash maxSize maxRetries oracle (toBatches batchSize texts) 0 c

/-- `for chunk, embedding in zip(chunks, embeddings)` in
`EmbeddingAgent.process` (embedding_agent.py:207-208): positional
attachment, truncated at the shorter list. -/
def attachEmbeddings : List Chunk → List (Option Vec) → List Chunk
  | cs, [] => cs
  | [], _ => []
  | ch :: cs, e :: es => { ch with embedding := e } :: attachEmbeddings cs es

/-- `EmbeddingAgent.process` (embedding_agent.py:174-226).  The text
splitter (`split_text`) and the hash are parameters; the call to
`_generate_embeddings` uses the Python default `batch_size = 100`.  The
generic `except` branch of the `try` is not reachable in this model because
`genEmbeddings` is total (the source catches every API error internally and
returns). -/
def embedProcess (splitter : String → List String) (hash : String → Key)
    (minChunkSize maxSize maxRetries : Nat) (oracle : Oracle)
    (doc : Doc) (cache : Cache) : Doc × Cache :=
  match doc.content with
  | none => (doc, cache)
  | some text =>
    if text = "" then (doc, cache)
    else if doc.status = .failed then (doc, cache)
    else
      let chunks := chunkText minChunkSize (splitter text)
      if chunks.isEmpty then
        ({ doc with errors := doc.errors ++ ["Chunking failed"] }, cache)
      else
        let r := genEmbeddings hash maxSize maxRetries 100 oracle
          (chunks.map (·.text)) cache
        if r.1.isEmpty then
          ({ doc with chunks := chunks,
                      errors := doc.errors ++ ["Embedding generation failed"] },
            r.2)
        else
          ({ doc with chunks := attachEmbeddings chunks r.1,
                      embeddings := r.1, status := .completed }, r.2)

/-- The record-building loop of `DatabaseAgent.process`
(database_agent.py:97-118): reading `chunk['embedding']` raises `KeyError`
at the first chunk without an attached vector, which the surrounding `try`
converts into a failure with nothing stored; otherwise every chunk becomes
a record (ids and flattened metadata elided). -/
def buildRecords : List Chunk → Option (List Chunk)
  | [] => some []
  | ch :: cs =>
    match ch.embedding with
    | none => none
    | some _ => (buildRecords cs).map (ch :: ·)

/-- `DatabaseAgent.process` (database_agent.py:73-142).  `store` is the
ChromaDB `collection.add` collaborator.  Returns the updated document and
the list of records actually handed to the store (empty on skip or
failure). -/
def dbProcess (store : List Chunk → Except Unit Unit) (doc : Doc) :
    Doc × List Chunk :=
  if doc.chunks.isEmpty || doc.embeddings.isEmpty then (doc, [])
  else if doc.status = .failed then (doc, [])
  else
    match buildRecords doc.chunks with
    | none =>
      ({ doc with status := .failed,
                  errors := doc.errors ++ ["Database error"] }, [])
    | some recs =>
      match store recs with
      | .error _ =>
        ({ doc with status := .failed,
                    errors := doc.errors ++ ["Database error"] }, [])
      | .ok _ => ({ doc with status := .completed }, recs)

/-- The checkpoint record (checkpoint.py:43-49; timestamp and free-form
metadata elided). -/
structure Checkpoint where
  processedFiles : List String
  currentBatch : Nat
  totalBatches : Nat
deriving DecidableEq

/-- The batch-boundary bookkeeping of `Orchestrator.process`
(orchestrator.py:144-147): keys of the documents that finished the batch
with status `completed`. -/
def completedKeys (docs : List Doc) : List String :=
  (docs.filter (fun d => decide (d.status = .completed))).map (·.key)

/-- The resume decision of `Orchestrator.process` (orchestrator.py:103-120):
when resuming with a loaded checkpoint, documents whose path is in the
checkpoint's `processed_files` are filtered out before batches are built;
the batch cursor continues from the recorded batch number. -/
def resumeRemaining (allDocs : List Doc) (resume : Bool)
    (cp : Option Checkpoint) : List Doc × List String × Nat :=
  if resume then
    match cp with
    | some c =>
      (allDocs.filter (fun d => !(c.processedFiles.contains d.key)),
        c.processedFiles, c.currentBatch)
    | none => (allDocs, [], 0)
  else (allDocs, [], 0)

/-- The streaming-batch lists actually handed to the stage runners by
`Orchestrator.process` (orchestrator.py:125-141): the filtered remainder
sliced into `stream_batch_size` groups. -/
def stageInputs (streamBatchSize : Nat) (allDocs : List Doc) (resume : Bool)
    (cp : Option Checkpoint) : List (List Doc) :=
  toBatches streamBatchSize (resumeRemaining allDocs resume cp).1

/-- The streaming-batch loop of `Orchestrator.process`
(orchestrator.py:125-160): run the stage pipeline on each batch, extend the
cumulative completed-key list, and overwrite the checkpoint file.  Returns
the processed documents, the final completed-key list, the cache and the
checkpoint-file state. -/
def batchLoop (stageFn : List Doc → Cache → List Doc × Cache) (totalB : Nat) :
    List (List Doc) → Nat → List String → Cache → Option Checkpoint →
      List Doc × List String × Cache × Option Checkpoint
  | [], _, processed, cache, fs => ([], processed, cache, fs)
  | b :: bs, num, processed, cache, _fs =>
    let r := stageFn b cache
    let processed' := processed ++ completedKeys r.1
    let rest := batchLoop stageFn totalB bs (num + 1) processed' r.2
      (some ⟨processed', num, totalB⟩)
    (r.1 ++ rest.1, rest.2)

/-- Result of one orchestrator run: the processed documents, the state of
the checkpoint file afterwards, and whether the run reached the
finalization step (cleanup + `clear_checkpoint`). -/
structure RunOutcome where
  docsOut : List Doc
  fsCheckpoint : Option Checkpoint
  finalized : Bool

/-- `Orchestrator.process` (orchestrator.py:65-178) as a state machine over
the checkpoint-file state.  When discovery yields no documents, the method
returns statistics immediately (orchestrator.py:93-95) — without running
the batch loop, without `_cleanup_final` and without `clear_checkpoint`.
Otherwise the batch loop runs and finalization clears the checkpoint
(orchestrator.py:167-172).  The per-batch stage pipeline is the `stageFn`
parameter; checkpoint writes are modelled as succeeding (their failure
semantics are covered by the persistence model below). -/
def orchestrate (stageFn : List Doc → Cache → List Doc × Cache)
    (streamBatchSize : Nat) (allDocs : List Doc) (resume : Bool)
    (fs : Option Checkpoint) (cache : Cache) : RunOutcome :=
  if allDocs.isEmpty then
    { docsOut := [], fsCheckpoint := fs, finalized := false }
  else
    let rp := resumeRemaining allDocs resume fs
    let totalB := (rp.1.length + streamBatchSize - 1) / streamBatchSize + rp.2.2
    let r := batchLoop stageFn totalB (stageInputs streamBatchSize allDocs resume fs)
      (rp.2.2 + 1) rp.2.1 cache fs
    { docsOut := r.1, fsCheckpoint := none, finalized := true }

/-- State of a persisted file: absent, unreadable/unparseable, or holding a
value. -/
inductive FileState (α : Type)
  | absent
  | malformed
  | valid (a : α)

/-- `EmbeddingAgent.load_cache` (embedding_agent.py:463-491): an absent file
returns immediately; an unpickling error or unrecognized format is caught
and logged, leaving the cache as it was; a valid dict is inserted entry by
entry through `put`. -/
def loadCacheFile (fs : FileState (List (Key × Vec))) (maxSize : Nat)
    (c : Cache) : Cache :=
  match fs with
  | .absent => c
  | .malformed => c
  | .valid entries =>
    entries.foldl (fun acc kv => cachePut maxSize kv.1 kv.2 acc) c

/-- `EmbeddingAgent.save_cache` (embedding_agent.py:439-461): a write
failure is caught and logged, leaving the previous file state. -/
def saveCacheFile (writeOk : Bool) (fsOld : FileState (List (Key × Vec)))
    (c : Cache) : FileState (List (Key × Vec)) :=
  if writeOk then .valid c else fsOld

/-- `CheckpointManager.load_checkpoint` (checkpoint.py:63-87): `None` when
the file is absent or any read/parse error occurs. -/
def loadCheckpointFile (fs : FileState Checkpoint) : Option Checkpoint :=
  match fs with
  | .absent => none
  | .malformed => none
  | .valid cp => some cp

/-- `CheckpointManager.save_checkpoint` (checkpoint.py:28-61): a write
failure is caught and logged, leaving the previous file state. -/
def saveCheckpointFile (writeOk : Bool) (fsOld : FileState Checkpoint)
    (cp : Checkpoint) : FileState Checkpoint :=
  if writeOk then .valid cp else fsOld

/-- Two API-call outcomes that agree on success/failure and on the returned
vectors, but may differ in which error class was raised.  The retry loop's
control flow cannot distinguish such outcomes. -/
def okEquiv : Except ApiErr (List Vec) → Except ApiErr (List Vec) → Prop
  | .ok v, .ok w => v = w
  | .error _, .error _ => True
  | .ok _, .error _ => False
  | .error _, .ok _ => False

/-- Concrete data for witnesses and counterexamples. -/
def chunkT : Chunk :=
  { text := "t", chunkIndex := 0, charCount := 1, tokenCount := 0,
    embedding := some [1] }

def docEmbedded : Doc :=
  { key := "a", content := some ("t"), chunks := [chunkT],
    embeddings := [some [1]], status := .completed }

def okStore : List Chunk → Except Unit Unit := fun _ => Except.ok ()

def failStore : List Chunk → Except Unit Unit := fun _ => Except.error ()

def docA : Doc := { key := "a", content := some ("x") }

def docB : Doc := { key := "b", content := some ("y") }

def cpA : Checkpoint :=
  { processedFiles := ["a"], currentBatch := 1, totalBatches := 2 }

/-- An embedding API that always reports a rate limit. -/
def rateOracle : Nat → Except ApiErr (List Vec) :=
  fun _ => Except.error ApiErr.rateLimit

/-- A splitter producing one chunk-sized piece. -/
def oneSplit : String → List String := fun _ => ["aaa"]

/-- An embedding API that always succeeds with one vector. -/
def okOracle : Oracle := fun _ _ => Except.ok [[5]]

/-- A splitter producing 101 pieces — one more than the request-group size
of 100 used by `process`. -/
def splitCX : String → List String := fun _ => List.replicate 100 "a" ++ ["b"]

/-- An API for the partial-embedding scenario: request group 0 (the first
100 texts) succeeds, group 1 always hits the rate limit. -/
def oracleCX : Oracle := fun g _ =>
  if g = 0 then Except.ok (List.replicate 100 [7])
  else Except.error ApiErr.rateLimit

def docCX : Doc := { key := "d", content := some ("x") }

/-- A completed document whose second chunk carries no vector. -/
def docPartial : Doc :=
  { key := "p", content := some ("t"),
    chunks := [chunkT,
      { text := "u", chunkIndex := 1, charCount := 1, tokenCount := 0 }],
    embeddings := [some [1]], status := .completed }

end EmbDB

namespace EmbDB

theorem cacheGet_miss (c : Cache) (k : Key)
    (hf : c.find? (fun p => p.1 == k) = none) : cacheGet c k = (none, c) := by
  simp [cacheGet, hf]

theorem cacheGet_hit (c : Cache) (k : Key) (p : Key × Vec)
    (hf : c.find? (fun p => p.1 == k) = some p) :
    cacheGet c k = (some p.2, (c.filter (fun q => !(q.1 == k))) ++ [p]) := by
  simp [cacheGet, hf]

theorem cachePut_existing (maxSize : Nat) (k : Key) (v : Vec) (c : Cache)
    (hf : (c.find? (fun p => p.1 == k)).isSome) :
    cachePut maxSize k v c = (cacheGet c k).2 := by
  simp [cachePut, hf]

theorem cachePut_new (maxSize : Nat) (k : Key) (v : Vec) (c : Cache)
    (hf : c.find? (fun p => p.1 == k) = none) :
    cachePut maxSize k v c =
      if maxSize < (c ++ [(k, v)]).length then (c ++ [(k, v)]).tail
      else c ++ [(k, v)] := by
  simp [cachePut, hf]

theorem find?_key_eq_none_iff (c : Cache) (k : Key) :
    c.find? (fun p => p.1 == k) = none ↔ k ∉ keysOf c := by
  rw [List.find?_eq_none]
  simp only [keysOf, List.mem_map, beq_iff_eq]
  constructor
  · rintro h ⟨q, hq, rfl⟩
    exact h q hq rfl
  · rintro h q hq rfl
    exact h ⟨q, hq, rfl⟩

theorem cacheGet_fst_eq_none_iff (c : Cache) (k : Key) :
    (cacheGet c k).1 = none ↔ k ∉ keysOf c := by
  rcases hf : c.find? (fun p => p.1 == k) with _ | p
  · rw [cacheGet_miss c k hf]
    simpa using (find?_key_eq_none_iff c k).mp hf
  · rw [cacheGet_hit c k p hf]
    have hmem := List.mem_of_find?_eq_some hf
    have hp := List.find?_some hf
    simp only [beq_iff_eq] at hp
    simp only [keysOf, List.mem_map]
    constructor
    · intro h; cases h
    · intro h; exact absurd ⟨p, hmem, hp⟩ h

theorem length_cacheGet_snd_le (c : Cache) (k : Key) :
    ((cacheGet c k).2).length ≤ c.length := by
  rcases hf : c.find? (fun p => p.1 == k) with _ | p
  · rw [cacheGet_miss c k hf]
  · rw [cacheGet_hit c k p hf]
    have hmem := List.mem_of_find?_eq_some hf
    have hp := List.find?_some hf
    have hlt : (c.filter (fun q => !(q.1 == k))).length < c.length := by
      apply List.length_filter_lt_length_iff_exists.mpr
      exact ⟨p, hmem, by simp [hp]⟩
    simp only [List.length_append, List.length_cons, List.length_nil]
    omega

theorem length_cachePut_le (maxSize : Nat) (k : Key) (v : Vec) (c : Cache)
    (h : c.length ≤ maxSize) : (cachePut maxSize k v c).length ≤ maxSize := by
  rcases hf : c.find? (fun p => p.1 == k) with _ | p
  · rw [cachePut_new maxSize k v c hf]
    by_cases hl : maxSize < (c ++ [(k, v)]).length
    · rw [if_pos hl]
      simp only [List.length_tail, List.length_append, List.length_cons,
        List.length_nil] at hl ⊢
      omega
    · rw [if_neg hl]
      simp only [List.length_append, List.length_cons, List.length_nil] at hl ⊢
      omega
  · rw [cachePut_existing maxSize k v c (by simp [hf])]
    exact le_trans (length_cacheGet_snd_le c k) h

theorem length_applyOp_le (maxSize : Nat) (c : Cache) (op : CacheOp)
    (h : c.length ≤ maxSize) : (applyOp maxSize c op).length ≤ maxSize := by
  cases op with
  | put k v => exact length_cachePut_le maxSize k v c h
  | get k => exact le_trans (length_cacheGet_snd_le c k) h

theorem length_runOps_le (maxSize : Nat) (ops : List CacheOp) :
    ∀ c : Cache, c.length ≤ maxSize → (runOps maxSize ops c).length ≤ maxSize := by
  induction ops with
  | nil => intro c h; exact h
  | cons op rest ih =>
    intro c h
    exact ih (applyOp maxSize c op) (length_applyOp_le maxSize c op h)

theorem nodup_keys_cacheGet (c : Cache) (k : Key)
    (h : (keysOf c).Nodup) : (keysOf ((cacheGet c k).2)).Nodup := by
  rcases hf : c.find? (fun p => p.1 == k) with _ | p
  · rw [cacheGet_miss c k hf]; exact h
  · rw [cacheGet_hit c k p hf]
    have hp := List.find?_some hf
    simp only [beq_iff_eq] at hp
    simp only [keysOf, List.map_append, List.map_cons, List.map_nil]
    rw [List.nodup_append]
    refine ⟨?_, List.nodup_singleton _, ?_⟩
    · have hsub : ((c.filter (fun q => !(q.1 == k))).map Prod.fst).Sublist
          (c.map Prod.fst) := (List.filter_sublist c).map Prod.fst
      exact h.sublist hsub
    · intro a ha hb
      simp only [List.mem_singleton] at hb
      subst hb
      simp only [List.mem_map] at ha
      obtain ⟨q, hq, hq1⟩ := ha
      rw [List.mem_filter] at hq
      have hq2 := hq.2
      rw [hp] at hq1
      simp [hq1] at hq2

theorem nodup_keys_cachePut (maxSize : Nat) (k : Key) (v : Vec) (c : Cache)
    (h : (keysOf c).Nodup) : (keysOf (cachePut maxSize k v c)).Nodup := by
  rcases hf : c.find? (fun p => p.1 == k) with _ | p
  · rw [cachePut_new maxSize k v c hf]
    have hknot : k ∉ keysOf c := (find?_key_eq_none_iff c k).mp hf
    have happ : (keysOf (c ++ [(k, v)])).Nodup := by
      simp only [keysOf, List.map_append, List.map_cons, List.map_nil]
      rw [List.nodup_append]
      refine ⟨h, List.nodup_singleton _, ?_⟩
      intro a ha hb
      simp only [List.mem_singleton] at hb
      subst hb
      exact hknot ha
    by_cases hl : maxSize < (c ++ [(k, v)]).length
    · rw [if_pos hl]
      have htl : keysOf (c ++ [(k, v)]).tail = (keysOf (c ++ [(k, v)])).tail := by
        cases h' : c ++ [(k, v)] with
        | nil => simp [keysOf]
        | cons a l => simp [keysOf]
      rw [htl]
      exact happ.sublist (List.tail_sublist _)
    · rw [if_neg hl]
      exact happ
  · rw [cachePut_existing maxSize k v c (by simp [hf])]
    exact nodup_keys_cacheGet c k h

theorem nodup_keys_applyOp (maxSize : Nat) (c : Cache) (op : CacheOp)
    (h : (keysOf c).Nodup) : (keysOf (applyOp maxSize c op)).Nodup := by
  cases op with
  | put k v => exact nodup_keys_cachePut maxSize k v c h
  | get k => exact nodup_keys_cacheGet c k h

theorem nodup_keys_runOps (maxSize : Nat) (ops : List CacheOp) :
    ∀ c : Cache, (keysOf c).Nodup → (keysOf (runOps maxSize ops c)).Nodup := by
  induction ops with
  | nil => intro c h; exact h
  | cons op rest ih =>
    intro c h
    exact ih (applyOp maxSize c op) (nodup_keys_applyOp maxSize c op h)

theorem cachePut_evicts_head (maxSize : Nat) (k : Key) (v : Vec) (c : Cache)
    (hnd : (keysOf c).Nodup) (hsz : c.length = maxSize)
    (habs : (cacheGet c k).1 = none) (p : Key × Vec) (hhd : c.head? = some p) :
    (cacheGet (cachePut maxSize k v c) p.1).1 = none ∧
      (cachePut maxSize k v c).length = maxSize := by
  have hk : k ∉ keysOf c := (cacheGet_fst_eq_none_iff c k).mp habs
  have hfind : c.find? (fun q => q.1 == k) = none :=
    (find?_key_eq_none_iff c k).mpr hk
  obtain ⟨rest, hc⟩ : ∃ rest, c = p :: rest := by
    cases c with
    | nil => simp at hhd
    | cons a l =>
      simp only [List.head?_cons, Option.some_inj] at hhd
      exact ⟨l, by rw [hhd]⟩
  subst hc
  have hlen : maxSize < ((p :: rest) ++ [(k, v)]).length := by
    simp only [List.length_append, List.length_cons, List.length_nil] at hsz ⊢
    omega
  have hput : cachePut maxSize k v (p :: rest) = rest ++ [(k, v)] := by
    rw [cachePut_new maxSize k v (p :: rest) hfind, if_pos hlen]
    rfl
  constructor
  · rw [hput, cacheGet_fst_eq_none_iff]
    simp only [keysOf, List.map_append, List.map_cons, List.map_nil] at hnd ⊢
    rw [List.nodup_cons] at hnd
    intro hmem
    rw [List.mem_append] at hmem
    rcases hmem with hmem | hmem
    · exact hnd.1 hmem
    · simp only [List.mem_singleton] at hmem
      apply hk
      rw [← hmem]
      simp [keysOf]
  · rw [hput]
    simp only [List.length_append, List.length_cons, List.length_nil] at hsz ⊢
    omega

/-- C1: for every sequence of `put`/`get` operations on an embedding `LRUCache`
of capacity `N` started empty, the size never exceeds `N`; and a `put` of a
new key when the size equals `N` evicts the least-recently-accessed entry
(the head of the recency order, which `get` hits refresh): afterwards that
key is absent and the size is still `N`. -/
theorem lru_cache_bound_and_lru_eviction (N : Nat) (ops : List CacheOp)
    (k : Key) (v : Vec) (p : Key × Vec)
    (hsz : (runOps N ops []).length = N)
    (habs : (cacheGet (runOps N ops []) k).1 = none)
    (hhd : (runOps N ops []).head? = some p) :
    (∀ ops' : List CacheOp, (runOps N ops' []).length ≤ N) ∧
      (cacheGet (cachePut N k v (runOps N ops [])) p.1).1 = none ∧
      (cachePut N k v (runOps N ops [])).length = N := by
  have hnd : (keysOf (runOps N ops [])).Nodup :=
    nodup_keys_runOps N ops [] (by simp [keysOf])
  have hev := cachePut_evicts_head N k v (runOps N ops []) hnd hsz habs p hhd
  exact ⟨fun ops' => length_runOps_le N ops' [] (by simp), hev.1, hev.2⟩

/-- Witness for C1 at capacity 2: after `put a`, `put b`, `get a` the
least-recently-accessed key is `b` (the `get` refreshed `a`), and a `put`
of the fresh key `c` evicts `b`. -/
theorem lru_cache_bound_and_lru_eviction_witness :
    (∀ ops' : List CacheOp, (runOps 2 ops' []).length ≤ 2) ∧
      (cacheGet (cachePut 2 "c" [3]
        (runOps 2 [CacheOp.put "a" [1], CacheOp.put "b" [2], CacheOp.get "a"] []))
        "b").1 = none ∧
      (cachePut 2 "c" [3]
        (runOps 2 [CacheOp.put "a" [1], CacheOp.put "b" [2], CacheOp.get "a"] [])).length = 2 :=
  lru_cache_bound_and_lru_eviction 2
    [CacheOp.put "a" [1], CacheOp.put "b" [2], CacheOp.get "a"]
    "c" [3] ("b", [2]) (by decide) (by decide) (by decide)

/-- C2 (code bug): `put` on a key already in the cache only calls
`move_to_end` and never stores the new value, contradicting the source's own
`# Update existing item` comment: after `put k [1]; put k [2]`, `get k`
still returns `[1]`. -/
theorem lru_put_existing_key_keeps_stale_value :
    (cacheGet (cachePut 10 "k" [2] (cachePut 10 "k" [1] [])) "k").1 = some [1] ∧
      ([1] : Vec) ≠ [2] := by decide

theorem buildRecords_some_eq (cs rs : List Chunk)
    (h : buildRecords cs = some rs) : rs = cs := by
  induction cs generalizing rs with
  | nil =>
    simp only [buildRecords] at h
    exact (Option.some_inj.mp h).symm
  | cons ch cs ih =>
    rcases he : ch.embedding with _ | v
    · simp [buildRecords, he] at h
    · simp only [buildRecords, he, Option.map_eq_some'] at h
      obtain ⟨rs', hrs', rfl⟩ := h
      rw [ih rs' hrs']

theorem dbProcess_skip_novec (store : List Chunk → Except Unit Unit)
    (doc : Doc) (h : (doc.chunks.isEmpty || doc.embeddings.isEmpty) = true) :
    dbProcess store doc = (doc, []) := by
  simp [dbProcess, h]

theorem dbProcess_skip_failed (store : List Chunk → Except Unit Unit)
    (doc : Doc) (h : (doc.chunks.isEmpty || doc.embeddings.isEmpty) = false)
    (hf : doc.status = .failed) : dbProcess store doc = (doc, []) := by
  simp [dbProcess, h, hf]

theorem dbProcess_missing_vector (store : List Chunk → Except Unit Unit)
    (doc : Doc) (h : (doc.chunks.isEmpty || doc.embeddings.isEmpty) = false)
    (hf : ¬doc.status = .failed) (hb : buildRecords doc.chunks = none) :
    dbProcess store doc =
      ({ doc with status := .failed,
                  errors := doc.errors ++ ["Database error"] }, []) := by
  simp [dbProcess, h, hf, hb]

theorem dbProcess_store_error (store : List Chunk → Except Unit Unit)
    (doc : Doc) (recs : List Chunk) (e : Unit)
    (h : (doc.chunks.isEmpty || doc.embeddings.isEmpty) = false)
    (hf : ¬doc.status = .failed) (hb : buildRecords doc.chunks = some recs)
    (hs : store recs = .error e) :
    dbProcess store doc =
      ({ doc with status := .failed,
                  errors := doc.errors ++ ["Database error"] }, []) := by
  simp [dbProcess, h, hf, hb, hs]

theorem dbProcess_store_ok (store : List Chunk → Except Unit Unit)
    (doc : Doc) (recs : List Chunk)
    (h : (doc.chunks.isEmpty || doc.embeddings.isEmpty) = false)
    (hf : ¬doc.status = .failed) (hb : buildRecords doc.chunks = some recs)
    (hs : store recs = .ok ()) :
    dbProcess store doc = ({ doc with status := .completed }, recs) := by
  simp [dbProcess, h, hf, hb, hs]

theorem dbProcess_stored_subset (store : List Chunk → Except Unit Unit)
    (doc : Doc) (r : Chunk) (hr : r ∈ (dbProcess store doc).2) :
    r ∈ doc.chunks := by
  rcases h1 : (doc.chunks.isEmpty || doc.embeddings.isEmpty) with _ | _
  · by_cases h2 : doc.status = .failed
    · rw [dbProcess_skip_failed store doc h1 h2] at hr
      simp at hr
    · rcases hb : buildRecords doc.chunks with _ | recs
      · rw [dbProcess_missing_vector store doc h1 h2 hb] at hr
        simp at hr
      · rcases hs : store recs with e | u
        · rw [dbProcess_store_error store doc recs e h1 h2 hb hs] at hr
          simp at hr
        · rw [dbProcess_store_ok store doc recs h1 h2 hb hs] at hr
          rw [buildRecords_some_eq doc.chunks recs hb] at hr
          exact hr
  · rw [dbProcess_skip_novec store doc h1] at hr
    simp at hr

/-- C3 (amended): within a document, `chunk_index` values are strictly
increasing (they are the enumeration indices of the splitter output, a
filtered subsequence of `range`); every emitted chunk has stripped length at
least the configured floor, so a below-minimum chunk never reaches the
embedding or storage stage (everything the storage stage stores is one of
the document's chunks); but — contrary to the original claim — the indices
are positions in the pre-filter list, so the filter can leave gaps. -/
theorem chunk_index_increasing_and_min_filter (m : Nat) (texts : List String)
    (ch : Chunk) (hch : ch ∈ chunkText m texts)
    (store : List Chunk → Except Unit Unit) (doc : Doc) (r : Chunk)
    (hr : r ∈ (dbProcess store doc).2) :
    List.Pairwise (· < ·) ((chunkText m texts).map (·.chunkIndex)) ∧
      m ≤ (pyStrip ch.text).length ∧ r ∈ doc.chunks := by
  refine ⟨?_, ?_, dbProcess_stored_subset store doc r hr⟩
  · unfold chunkText
    rw [List.map_map]
    have hfst : ((fun it =>
        ({ text := it.2, chunkIndex := it.1, charCount := it.2.length,
           tokenCount := it.2.length / 4 } : Chunk)) ∘ id) = id ∘
        (fun it : Nat × String =>
          ({ text := it.2, chunkIndex := it.1, charCount := it.2.length,
             tokenCount := it.2.length / 4 } : Chunk)) := rfl
    have hsub : (((texts.enum).filter
        (fun it => !(decide ((pyStrip it.2).length < m)))).map Prod.fst).Sublist
        ((texts.enum).map Prod.fst) :=
      (List.filter_sublist _).map Prod.fst
    rw [List.enum_map_fst] at hsub
    have hpw : List.Pairwise (· < ·) (List.range texts.length) :=
      List.pairwise_lt_range texts.length
    exact hpw.sublist hsub
  · unfold chunkText at hch
    simp only [List.mem_map, List.mem_filter] at hch
    obtain ⟨it, ⟨_, hpred⟩, rfl⟩ := hch
    simp only [Bool.not_eq_eq_eq_not, Bool.not_true, decide_eq_false_iff_not,
      not_lt] at hpred
    exact hpred

/-- Witness for C3 at a concrete splitter output and a concrete stored
document. -/
theorem chunk_index_increasing_and_min_filter_witness :
    List.Pairwise (· < ·) ((chunkText 2 ["aa", "b"]).map (·.chunkIndex)) ∧
      2 ≤ (pyStrip "aa").length ∧ chunkT ∈ docEmbedded.chunks :=
  chunk_index_increasing_and_min_filter 2 ["aa", "b"]
    { text := "aa", chunkIndex := 0, charCount := 2, tokenCount := 0 }
    (by decide) okStore docEmbedded chunkT (by decide)

/-- C3 counterexample: with a configured minimum length of 2, the splitter
output `["aa", "b", "cc"]` yields chunk indices `[0, 2]` — index 1 was
dropped by the minimum-length filter, so the filter does introduce a gap. -/
theorem chunk_index_gap_counterexample :
    (chunkText 2 ["aa", "b", "cc"]).map (·.chunkIndex) = [0, 2] ∧
      (∃ ch ∈ chunkText 2 ["aa", "b", "cc"], ch.chunkIndex = 0) ∧
      (∃ ch ∈ chunkText 2 ["aa", "b", "cc"], ch.chunkIndex = 2) ∧
      ¬(∃ ch ∈ chunkText 2 ["aa", "b", "cc"], ch.chunkIndex = 1) := by decide

theorem embedProcess_no_content (splitter : String → List String)
    (hash : String → Key) (m M R : Nat) (O : Oracle) (doc : Doc) (cache : Cache)
    (hcon : doc.content = none) :
    embedProcess splitter hash m M R O doc cache = (doc, cache) := by
  simp [embedProcess, hcon]

theorem embedProcess_empty_content (splitter : String → List String)
    (hash : String → Key) (m M R : Nat) (O : Oracle) (doc : Doc) (cache : Cache)
    (hcon : doc.content = some "") :
    embedProcess splitter hash m M R O doc cache = (doc, cache) := by
  simp [embedProcess, hcon]

theorem embedProcess_skip_failed (splitter : String → List String)
    (hash : String → Key) (m M R : Nat) (O : Oracle) (doc : Doc) (cache : Cache)
    (text : String) (hcon : doc.content = some text) (ht : text ≠ "")
    (hf : doc.status = .failed) :
    embedProcess splitter hash m M R O doc cache = (doc, cache) := by
  simp [embedProcess, hcon, ht, hf]

theorem embedProcess_no_chunks (splitter : String → List String)
    (hash : String → Key) (m M R : Nat) (O : Oracle) (doc : Doc) (cache : Cache)
    (text : String) (hcon : doc.content = some text) (ht : text ≠ "")
    (hf : ¬doc.status = .failed)
    (hc : (chunkText m (splitter text)).isEmpty = true) :
    embedProcess splitter hash m M R O doc cache =
      ({ doc with errors := doc.errors ++ ["Chunking failed"] }, cache) := by
  simp [embedProcess, hcon, ht, hf, hc]

theorem embedProcess_gen_empty (splitter : String → List String)
    (hash : String → Key) (m M R : Nat) (O : Oracle) (doc : Doc) (cache : Cache)
    (text : String) (hcon : doc.content = some text) (ht : text ≠ "")
    (hf : ¬doc.status = .failed)
    (hc : (chunkText m (splitter text)).isEmpty = false)
    (he : (genEmbeddings hash M R 100 O
      ((chunkText m (splitter text)).map (·.text)) cache).1.isEmpty = true) :
    embedProcess splitter hash m M R O doc cache =
      ({ doc with chunks := chunkText m (splitter text),
                  errors := doc.errors ++ ["Embedding generation failed"] },
        (genEmbeddings hash M R 100 O
          ((chunkText m (splitter text)).map (·.text)) cache).2) := by
  simp [embedProcess, hcon, ht, hf, hc, he]

theorem embedProcess_success (splitter : String → List String)
    (hash : String → Key) (m M R : Nat) (O : Oracle) (doc : Doc) (cache : Cache)
    (text : String) (hcon : doc.content = some text) (ht : text ≠ "")
    (hf : ¬doc.status = .failed)
    (hc : (chunkText m (splitter text)).isEmpty = false)
    (he : (genEmbeddings hash M R 100 O
      ((chunkText m (splitter text)).map (·.text)) cache).1.isEmpty = false) :
    embedProcess splitter hash m M R O doc cache =
      ({ doc with
          chunks := attachEmbeddings (chunkText m (splitter text))
            (genEmbeddings hash M R 100 O
              ((chunkText m (splitter text)).map (·.text)) cache).1,
          embeddings := (genEmbeddings hash M R 100 O
            ((chunkText m (splitter text)).map (·.text)) cache).1,
          status := .completed },
        (genEmbeddings hash M R 100 O
          ((chunkText m (splitter text)).map (·.text)) cache).2) := by
  simp [embedProcess, hcon, ht, hf, hc, he]

/-- C5 (amended): the status never moves backwards — a document already
marked failed is returned unchanged (skipped) by both the embedding and the
storage stage, and no stage ever returns a document to `pending`; the
embedding stage only keeps the status or marks `completed`.  (A `completed`
document can however still move to `failed` in a later stage; see the
counterexample.) -/
theorem failed_docs_skipped_and_status_forward :
    (∀ splitter hash m M R O (doc : Doc) cache, doc.status = .failed →
        embedProcess splitter hash m M R O doc cache = (doc, cache)) ∧
      (∀ store (doc : Doc), doc.status = .failed →
        dbProcess store doc = (doc, [])) ∧
      (∀ splitter hash m M R O (doc : Doc) cache,
        (embedProcess splitter hash m M R O doc cache).1.status = doc.status ∨
          (embedProcess splitter hash m M R O doc cache).1.status = .completed) ∧
      (∀ store (doc : Doc),
        (dbProcess store doc).1.status = .pending → doc.status = .pending) := by
  refine ⟨?_, ?_, ?_, ?_⟩
  · intro splitter hash m M R O doc cache hf
    rcases hcon : doc.content with _ | text
    · exact embedProcess_no_content splitter hash m M R O doc cache hcon
    · by_cases ht : text = ""
      · subst ht
        exact embedProcess_empty_content splitter hash m M R O doc cache hcon
      · exact embedProcess_skip_failed splitter hash m M R O doc cache text
          hcon ht hf
  · intro store doc hf
    rcases h1 : (doc.chunks.isEmpty || doc.embeddings.isEmpty) with _ | _
    · exact dbProcess_skip_failed store doc h1 hf
    · exact dbProcess_skip_novec store doc h1
  · intro splitter hash m M R O doc cache
    rcases hcon : doc.content with _ | text
    · rw [embedProcess_no_content splitter hash m M R O doc cache hcon]
      exact Or.inl rfl
    · by_cases ht : text = ""
      · subst ht
        rw [embedProcess_empty_content splitter hash m M R O doc cache hcon]
        exact Or.inl rfl
      · by_cases hf : doc.status = .failed
        · rw [embedProcess_skip_failed splitter hash m M R O doc cache text
            hcon ht hf]
          exact Or.inl rfl
        · rcases hc : (chunkText m (splitter text)).isEmpty with _ | _
          · rcases he : (genEmbeddings hash M R 100 O
                ((chunkText m (splitter text)).map (·.text)) cache).1.isEmpty
              with _ | _
            · rw [embedProcess_success splitter hash m M R O doc cache text
                hcon ht hf hc he]
              exact Or.inr rfl
            · rw [embedProcess_gen_empty splitter hash m M R O doc cache text
                hcon ht hf hc he]
              exact Or.inl rfl
          · rw [embedProcess_no_chunks splitter hash m M R O doc cache text
              hcon ht hf hc]
            exact Or.inl rfl
  · intro store doc
    rcases h1 : (doc.chunks.isEmpty || doc.embeddings.isEmpty) with _ | _
    · by_cases h2 : doc.status = .failed
      · rw [dbProcess_skip_failed store doc h1 h2]
        intro h; exact h
      · rcases hb : buildRecords doc.chunks with _ | recs
        · rw [dbProcess_missing_vector store doc h1 h2 hb]
          intro h; cases h
        · rcases hs : store recs with e | u
          · rw [dbProcess_store_error store doc recs e h1 h2 hb hs]
            intro h; cases h
          · rw [dbProcess_store_ok store doc recs h1 h2 hb hs]
            intro h; cases h
    · rw [dbProcess_skip_novec store doc h1]
      intro h; exact h

/-- Witness for C5: a concretely failed document passes through both stages
unchanged. -/
theorem failed_docs_skipped_and_status_forward_witness :
    embedProcess (fun _ => ["aaa"]) id 1 10 3 (fun _ _ => Except.ok [[5]])
        { key := "f", content := some ("t"), status := .failed } [] =
      ({ key := "f", content := some ("t"), status := .failed }, []) ∧
      dbProcess okStore { key := "f", content := some ("t"), status := .failed } =
        ({ key := "f", content := some ("t"), status := .failed }, []) :=
  ⟨failed_docs_skipped_and_status_forward.1 (fun _ => ["aaa"]) id 1 10 3
      (fun _ _ => Except.ok [[5]])
      { key := "f", content := some ("t"), status := .failed } [] rfl,
    failed_docs_skipped_and_status_forward.2.1 okStore
      { key := "f", content := some ("t"), status := .failed } rfl⟩

/-- C5 counterexample: a document that the embedding stage left with status
`completed` is moved to `failed` by the storage stage when `collection.add`
raises — a transition outside `pending → completed|failed`, so "status
transitions only forward (pending→completed|failed)" does not hold as
stated. -/
theorem completed_to_failed_counterexample :
    docEmbedded.status = Status.completed ∧
      (dbProcess failStore docEmbedded).1.status = Status.failed := by decide

/-- C8: persistence failures are never fatal — loading the embedding cache
or the checkpoint from an absent or malformed file leaves the cache
unchanged (empty at startup) and yields no checkpoint, and a failing save
leaves the previous file state; all these operations return normally (they
are total functions into non-error types, as the source catches every
exception). -/
theorem persistence_failures_degrade_to_absence :
    (∀ (M : Nat) (c : Cache), loadCacheFile .absent M c = c) ∧
      (∀ (M : Nat) (c : Cache), loadCacheFile .malformed M c = c) ∧
      (∀ M : Nat, loadCacheFile .malformed M [] = []) ∧
      loadCheckpointFile .absent = none ∧
      loadCheckpointFile .malformed = none ∧
      (∀ fsOld c, saveCacheFile false fsOld c = fsOld) ∧
      (∀ fsOld cp, saveCheckpointFile false fsOld cp = fsOld) :=
  ⟨fun _ _ => rfl, fun _ _ => rfl, fun _ => rfl, rfl, rfl,
    fun _ _ => rfl, fun _ _ => rfl⟩

theorem toBatchesGo_mem_subset {α : Type} :
    ∀ (fuel n : Nat) (l b : List α), b ∈ toBatchesGo fuel n l →
      ∀ x ∈ b, x ∈ l := by
  intro fuel
  induction fuel with
  | zero => intro n l b hb; simp [toBatchesGo] at hb
  | succ fuel ih =>
    intro n l b hb
    match n, l with
    | _, [] => simp [toBatchesGo] at hb
    | 0, y :: ys => simp [toBatchesGo] at hb
    | n + 1, y :: ys =>
      rw [toBatchesGo] at hb
      rcases List.mem_cons.mp hb with rfl | hb
      · intro x hx
        rcases List.mem_cons.mp hx with rfl | hx
        · exact List.mem_cons_self _ _
        · exact List.mem_cons_of_mem _ (List.take_subset _ _ hx)
      · intro x hx
        exact List.mem_cons_of_mem _
          (List.drop_subset _ _ (ih (n + 1) (ys.drop n) b hb x hx))

theorem toBatches_mem_subset {α : Type} (n : Nat) (l b : List α)
    (hb : b ∈ toBatches n l) : ∀ x ∈ b, x ∈ l :=
  toBatchesGo_mem_subset l.length n l b hb

/-- C7: when resume is requested and a checkpoint was loaded, the
orchestrator filters the checkpoint's completed keys out of the discovered
documents before slicing batches, so no document whose key is in the
completed set ever appears in a batch handed to the embedding or storage
stage — it is only skipped. -/
theorem resume_skips_checkpointed_documents (sbs : Nat) (allDocs : List Doc)
    (cp : Checkpoint) (b : List Doc) (d : Doc)
    (hb : b ∈ stageInputs sbs allDocs true (some cp)) (hd : d ∈ b) :
    d.key ∉ cp.processedFiles := by
  have hmem : d ∈ (resumeRemaining allDocs true (some cp)).1 :=
    toBatches_mem_subset sbs _ b hb d hd
  simp only [resumeRemaining, if_true] at hmem
  rw [List.mem_filter] at hmem
  have hcon := hmem.2
  rw [Bool.not_eq_true'] at hcon
  intro habs
  have htrue : cp.processedFiles.elem d.key = true := List.elem_iff.mpr habs
  have hfalse : cp.processedFiles.elem d.key = false := hcon
  rw [htrue] at hfalse
  cases hfalse

/-- Witness for C7: with checkpoint `{a}` over discovered documents
`[a, b]`, the single batch is `[b]` and its member's key is not in the
completed set. -/
theorem resume_skips_checkpointed_documents_witness :
    docB.key ∉ cpA.processedFiles :=
  resume_skips_checkpointed_documents 1 [docA, docB] cpA [docB] docB
    (by decide) (by decide)

/-- C9 (amended): every run in which discovery found at least one document
reaches finalization and clears the checkpoint; but — contrary to the
original claim — a run that discovers zero documents returns its statistics
immediately and does not clear the checkpoint (see the counterexample). -/
theorem nonempty_run_clears_checkpoint
    (stageFn : List Doc → Cache → List Doc × Cache) (sbs : Nat)
    (docs : List Doc) (resume : Bool) (fs : Option Checkpoint) (cache : Cache)
    (h : docs ≠ []) :
    (orchestrate stageFn sbs docs resume fs cache).fsCheckpoint = none ∧
      (orchestrate stageFn sbs docs resume fs cache).finalized = true := by
  have hne : docs.isEmpty = false := by
    cases docs with
    | nil => exact absurd rfl h
    | cons a l => rfl
  unfold orchestrate
  rw [hne]
  exact ⟨rfl, rfl⟩

/-- Witness for C9 on a one-document run. -/
theorem nonempty_run_clears_checkpoint_witness :
    (orchestrate (fun b c => (b, c)) 50 [docA] true (some cpA) []).fsCheckpoint
        = none ∧
      (orchestrate (fun b c => (b, c)) 50 [docA] true (some cpA) []).finalized
        = true :=
  nonempty_run_clears_checkpoint (fun b c => (b, c)) 50 [docA] true (some cpA)
    [] (by decide)

/-- C9 counterexample: a run that discovers zero documents returns at
orchestrator.py:93-95 without reaching finalization, leaving the checkpoint
file in place — resume state remains after a run that completed without
error. -/
theorem zero_docs_run_keeps_checkpoint_counterexample :
    (orchestrate (fun b c => (b, c)) 50 [] true (some cpA) []).fsCheckpoint
        = some cpA ∧
      (orchestrate (fun b c => (b, c)) 50 [] true (some cpA) []).finalized
        = false ∧
      some cpA ≠ (none : Option Checkpoint) := by
  exact ⟨rfl, rfl, by decide⟩

theorem buildRecords_none_of_missing (cs : List Chunk)
    (h : ∃ ch ∈ cs, ch.embedding = none) : buildRecords cs = none := by
  induction cs with
  | nil => obtain ⟨ch, hch, _⟩ := h; simp at hch
  | cons ch' cs ih =>
    rcases he : ch'.embedding with _ | v
    · simp [buildRecords, he]
    · obtain ⟨ch, hch, hemb⟩ := h
      rcases List.mem_cons.mp hch with rfl | hch
      · rw [he] at hemb; cases hemb
      · simp [buildRecords, he, ih ⟨ch, hch, hemb⟩]

theorem completedKeys_failed (d : Doc) (h : d.status = .failed) :
    completedKeys [d] = [] := by
  simp [completedKeys, h]

/-- C10 (amended): whenever the embedding generation returns a non-empty
vector list, `process` marks the document `completed` and attaches the
vectors positionally to the first `len(embeddings)` chunks; but — contrary
to the original claim — a document whose embedding list is shorter than its
chunk list does not enter the checkpoint's completed-key set: the storage
stage, which runs before the batch boundary, raises `KeyError` on the first
chunk without a vector, marks the document `failed`, and the boundary's
completed-key computation excludes it. -/
theorem partial_embedding_completed_then_failed_at_storage
    (splitter : String → List String) (hash : String → Key) (m M R : Nat)
    (O : Oracle) (doc : Doc) (cache : Cache) (text : String)
    (hcon : doc.content = some text) (ht : text ≠ "")
    (hf : ¬doc.status = .failed)
    (hc : (chunkText m (splitter text)).isEmpty = false)
    (he : (genEmbeddings hash M R 100 O
      ((chunkText m (splitter text)).map (·.text)) cache).1.isEmpty = false) :
    (embedProcess splitter hash m M R O doc cache).1.status = .completed ∧
      (embedProcess splitter hash m M R O doc cache).1.chunks =
        attachEmbeddings (chunkText m (splitter text))
          (genEmbeddings hash M R 100 O
            ((chunkText m (splitter text)).map (·.text)) cache).1 ∧
      (embedProcess splitter hash m M R O doc cache).1.embeddings =
        (genEmbeddings hash M R 100 O
          ((chunkText m (splitter text)).map (·.text)) cache).1 ∧
      (∀ store (d : Doc), ¬d.status = .failed → d.chunks ≠ [] →
        d.embeddings ≠ [] → (∃ ch ∈ d.chunks, ch.embedding = none) →
        (dbProcess store d).1.status = .failed ∧
          completedKeys [(dbProcess store d).1] = []) := by
  rw [embedProcess_success splitter hash m M R O doc cache text hcon ht hf hc he]
  refine ⟨rfl, rfl, rfl, ?_⟩
  intro store d hdf hdc hde hmiss
  have h1 : (d.chunks.isEmpty || d.embeddings.isEmpty) = false := by
    cases hcase : d.chunks with
    | nil => exact absurd hcase hdc
    | cons a l =>
      cases hcase2 : d.embeddings with
      | nil => exact absurd hcase2 hde
      | cons b l2 => rfl
  have hb : buildRecords d.chunks = none := buildRecords_none_of_missing _ hmiss
  rw [dbProcess_missing_vector store d h1 hdf hb]
  exact ⟨rfl, completedKeys_failed _ rfl⟩

/-- Witness for C10 on a one-chunk document whose single chunk is embedded
successfully. -/
theorem partial_embedding_completed_then_failed_at_storage_witness :
    (embedProcess oneSplit id 1 10 3 okOracle docA []).1.status = .completed ∧
      (embedProcess oneSplit id 1 10 3 okOracle docA []).1.chunks =
        attachEmbeddings (chunkText 1 (oneSplit "x"))
          (genEmbeddings id 10 3 100 okOracle
            ((chunkText 1 (oneSplit "x")).map (·.text)) []).1 ∧
      (embedProcess oneSplit id 1 10 3 okOracle docA []).1.embeddings =
        (genEmbeddings id 10 3 100 okOracle
          ((chunkText 1 (oneSplit "x")).map (·.text)) []).1 ∧
      (∀ store (d : Doc), ¬d.status = .failed → d.chunks ≠ [] →
        d.embeddings ≠ [] → (∃ ch ∈ d.chunks, ch.embedding = none) →
        (dbProcess store d).1.status = .failed ∧
          completedKeys [(dbProcess store d).1] = []) :=
  partial_embedding_completed_then_failed_at_storage oneSplit id 1 10 3
    okOracle docA [] "x" rfl (by decide) (by decide) (by decide) (by decide)

set_option maxRecDepth 100000 in
/-- C10 counterexample: a 101-chunk document with request-group size 100 —
group 0 succeeds, group 1 exhausts its retries.  The embedding stage marks
the document `completed` with 100 embeddings for 101 chunks, but the
storage stage then fails on the vectorless chunk, so the document's key is
NOT in the batch boundary's completed set. -/
theorem partial_embedding_not_checkpointed_counterexample :
    (embedProcess splitCX id 1 10000 3 oracleCX docCX []).1.status
        = Status.completed ∧
      (embedProcess splitCX id 1 10000 3 oracleCX docCX []).1.embeddings.length
        = 100 ∧
      (embedProcess splitCX id 1 10000 3 oracleCX docCX []).1.chunks.length
        = 101 ∧
      (dbProcess okStore
        (embedProcess splitCX id 1 10000 3 oracleCX docCX []).1).1.status
        = Status.failed ∧
      completedKeys [(dbProcess okStore
        (embedProcess splitCX id 1 10000 3 oracleCX docCX []).1).1] = [] := by
  refine ⟨?_, ?_, ?_, ?_, ?_⟩ <;> rfl

theorem retryGo_attempts_le (oracle : Nat → Except ApiErr (List Vec)) :
    ∀ (rem a d : Nat), (retryGo oracle a d rem).2.1 ≤ rem := by
  intro rem
  induction rem with
  | zero => intro a d; simp [retryGo]
  | succ rem ih =>
    intro a d
    rw [retryGo]
    rcases oracle a with e | vs
    · by_cases hr : rem = 0
      · simp [hr]
      · simp only [if_neg hr]
        have := ih (a + 1) (d * 2)
        omega
    · simp

theorem retryGo_attempts_pos (oracle : Nat → Except ApiErr (List Vec))
    (rem a d : Nat) (h : 1 ≤ rem) : 1 ≤ (retryGo oracle a d rem).2.1 := by
  cases rem with
  | zero => omega
  | succ rem =>
    rw [retryGo]
    rcases oracle a with e | vs
    · by_cases hr : rem = 0
      · simp [hr]
      · simp only [if_neg hr]
        omega
    · simp

theorem retryGo_delays (oracle : Nat → Except ApiErr (List Vec)) :
    ∀ (rem a d : Nat),
      (retryGo oracle a d rem).2.2 =
        (List.range ((retryGo oracle a d rem).2.1 - 1)).map
          (fun i => d * 2 ^ i) := by
  intro rem
  induction rem with
  | zero => intro a d; simp [retryGo]
  | succ rem ih =>
    intro a d
    rw [retryGo]
    rcases oracle a with e | vs
    · by_cases hr : rem = 0
      · simp [hr]
      · simp only [if_neg hr]
        have hpos : 1 ≤ (retryGo oracle (a + 1) (d * 2) rem).2.1 :=
          retryGo_attempts_pos oracle rem (a + 1) (d * 2) (by omega)
        obtain ⟨m, hm⟩ : ∃ m, (retryGo oracle (a + 1) (d * 2) rem).2.1 = m + 1 :=
          ⟨(retryGo oracle (a + 1) (d * 2) rem).2.1 - 1, by omega⟩
        have hih := ih (a + 1) (d * 2)
        rw [hm] at hih
    /- delays of the recursive call follow the doubled starting delay -/
        simp only [hih, hm]
        have hrange : List.range (m + 1 + 1 - 1) = List.range (m + 1) := rfl
        rw [hrange, List.range_succ_eq_map]
        simp only [List.map_cons, List.map_map, pow_zero, mul_one,
          Nat.add_sub_cancel]
        congr 1
        apply List.map_congr_left
        intro i _
        simp only [Function.comp_apply, pow_succ]
        ring
    · simp

theorem retryGo_exhaust (oracle : Nat → Except ApiErr (List Vec)) :
    ∀ (rem a d : Nat), (∀ i < rem, ∃ e, oracle (a + i) = Except.error e) →
      (retryGo oracle a d rem).1 = none ∧
        (retryGo oracle a d rem).2.1 = rem := by
  intro rem
  induction rem with
  | zero => intro a d _; simp [retryGo]
  | succ rem ih =>
    intro a d h
    obtain ⟨e, he⟩ := h 0 (by omega)
    rw [retryGo]
    rw [Nat.add_zero] at he
    rw [he]
    by_cases hr : rem = 0
    · simp [hr]
    · simp only [if_neg hr]
      have hi := ih (a + 1) (d * 2) (fun i hi => by
        have := h (i + 1) (by omega)
        rw [show a + (i + 1) = a + 1 + i by omega] at this
        exact this)
      exact ⟨hi.1, by omega⟩

theorem retryGo_okEquiv (oracle oracle' : Nat → Except ApiErr (List Vec))
    (h : ∀ i, okEquiv (oracle i) (oracle' i)) :
    ∀ (rem a d : Nat), retryGo oracle' a d rem = retryGo oracle a d rem := by
  intro rem
  induction rem with
  | zero => intro a d; rfl
  | succ rem ih =>
    intro a d
    have ha := h a
    rcases h1 : oracle a with e | vs <;> rcases h2 : oracle' a with e' | vs'
    · rw [retryGo, retryGo, h1, h2]
      by_cases hr : rem = 0
      · simp [hr]
      · simp only [if_neg hr, ih (a + 1) (d * 2)]
    · rw [h1, h2] at ha
      simp [okEquiv] at ha
    · rw [h1, h2] at ha
      simp [okEquiv] at ha
    · rw [h1, h2] at ha
      simp only [okEquiv] at ha
      rw [retryGo, retryGo, h1, h2, ha]

theorem genGroups_gives_up (hash : String → Key) (M R : Nat) (O : Oracle)
    (batch : List String) (rest : List (List String)) (g : Nat) (c : Cache)
    (bes : List (Option Vec)) (unc : List (String × Nat)) (c1 : Cache)
    (hscan : scanBatch hash batch 0 c = (bes, unc, c1)) (hunc : unc ≠ [])
    (m : Nat) (ds : List Nat)
    (hretry : retryGroup (fun a => O g a) R = (none, m + 1, ds)) :
    genGroups hash M R O (batch :: rest) g c = ([], c1) := by
  obtain ⟨u, us, rfl⟩ : ∃ u us, unc = u :: us := by
    cases unc with
    | nil => exact absurd rfl hunc
    | cons u us => exact ⟨u, us, rfl⟩
  simp only [genGroups, hscan, List.isEmpty_cons, if_false, hretry,
    Bool.false_eq_true]

/-- C6: each embedding API request group is attempted at most
`max_retries` times (default 3); between consecutive attempts the stage
sleeps a delay that starts at 1 and doubles each time; rate-limit/quota
errors and other errors follow exactly the same control flow; and when the
attempts are exhausted the stage stops and returns only the results
accumulated before the failing group, instead of raising. -/
theorem api_retry_bounded_exponential_backoff
    (oracle : Nat → Except ApiErr (List Vec)) (n : Nat) (hn : 1 ≤ n) :
    (retryGroup oracle n).2.1 ≤ n ∧
      (retryGroup oracle n).2.2 =
        (List.range ((retryGroup oracle n).2.1 - 1)).map (fun i => 2 ^ i) ∧
      (∀ oracle' : Nat → Except ApiErr (List Vec),
        (∀ a, okEquiv (oracle a) (oracle' a)) →
          retryGroup oracle' n = retryGroup oracle n) ∧
      ((∀ a < n, ∃ e, oracle a = Except.error e) →
        (retryGroup oracle n).1 = none ∧ (retryGroup oracle n).2.1 = n) ∧
      (∀ (O : Oracle) (hash : String → Key) (M : Nat) (batch : List String)
          (rest : List (List String)) (g : Nat) (c : Cache)
          (bes : List (Option Vec)) (unc : List (String × Nat)) (c1 : Cache),
        scanBatch hash batch 0 c = (bes, unc, c1) → unc ≠ [] →
          (retryGroup (fun a => O g a) n).1 = none →
          genGroups hash M n O (batch :: rest) g c = ([], c1)) := by
  unfold retryGroup
  refine ⟨retryGo_attempts_le oracle n 0 1, ?_, ?_, ?_, ?_⟩
  · have h := retryGo_delays oracle n 0 1
    rw [h]
    apply List.map_congr_left
    intro i _
    exact one_mul _
  · intro oracle' h
    exact retryGo_okEquiv oracle oracle' h n 0 1
  · intro h
    exact retryGo_exhaust oracle n 0 1 (fun i hi => by
      rw [Nat.zero_add]
      exact h i hi)
  · intro O hash M batch rest g c bes unc c1 hscan hunc hres
    have hpos : 1 ≤ (retryGroup (fun a => O g a) n).2.1 :=
      retryGo_attempts_pos (fun a => O g a) n 0 1 hn
    obtain ⟨m, hm⟩ : ∃ m, (retryGroup (fun a => O g a) n).2.1 = m + 1 :=
      ⟨(retryGroup (fun a => O g a) n).2.1 - 1, by omega⟩
    have hretry : retryGroup (fun a => O g a) n =
        (none, m + 1, (retryGroup (fun a => O g a) n).2.2) := by
      rw [← hres, ← hm]
      rfl
    exact genGroups_gives_up hash M n O batch rest g c bes unc c1 hscan hunc m
      ((retryGroup (fun a => O g a) n).2.2) hretry

theorem keysOf_cachePut_subset (M : Nat) (k : Key) (v : Vec) (c : Cache)
    (k' : Key) (h : k' ∈ keysOf (cachePut M k v c)) :
    k' = k ∨ k' ∈ keysOf c := by
  rcases hf : c.find? (fun p => p.1 == k) with _ | p
  · rw [cachePut_new M k v c hf] at h
    have happ : k' ∈ keysOf (c ++ [(k, v)]) := by
      by_cases hl : M < (c ++ [(k, v)]).length
      · rw [if_pos hl] at h
        have : (keysOf (c ++ [(k, v)]).tail).Sublist (keysOf (c ++ [(k, v)])) := by
          cases c ++ [(k, v)] with
          | nil => simp [keysOf]
          | cons a l => simp [keysOf]
        exact this.mem h
      · rw [if_neg hl] at h
        exact h
    simp only [keysOf, List.map_append, List.map_cons, List.map_nil,
      List.mem_append, List.mem_singleton] at happ
    rcases happ with h1 | h1
    · exact Or.inr h1
    · exact Or.inl h1
  · rw [cachePut_existing M k v c (by simp [hf]), cacheGet_hit c k p hf] at h
    have hp := List.find?_some hf
    simp only [beq_iff_eq] at hp
    simp only [keysOf, List.map_append, List.map_cons, List.map_nil,
      List.mem_append, List.mem_singleton] at h
    rcases h with h1 | h1
    · simp only [List.mem_map] at h1
      obtain ⟨q, hq, rfl⟩ := h1
      exact Or.inr (List.mem_map_of_mem Prod.fst (List.mem_of_mem_filter hq))
    · rw [h1, hp]
      exact Or.inl rfl

theorem cacheGet_miss_of_not_mem (c : Cache) (k : Key) (h : k ∉ keysOf c) :
    cacheGet c k = (none, c) :=
  cacheGet_miss c k ((find?_key_eq_none_iff c k).mpr h)

theorem scanBatch_fresh (hash : String → Key) :
    ∀ (ts : List String) (j : Nat) (c : Cache),
      (∀ t ∈ ts, hash t ∉ keysOf c) →
      scanBatch hash ts j c =
        (List.replicate ts.length none,
          (ts.enumFrom j).map (fun it => (it.2, it.1)), c) := by
  intro ts
  induction ts with
  | nil => intro j c _; rfl
  | cons t ts ih =>
    intro j c h
    have hget : cacheGet c (hash t) = (none, c) :=
      cacheGet_miss_of_not_mem c (hash t) (h t (List.mem_cons_self t ts))
    have hrec := ih (j + 1) c (fun t' ht' => h t' (List.mem_cons_of_mem t ht'))
    simp only [scanBatch, hget, hrec, List.length_cons, List.replicate_succ,
      List.enumFrom_cons, List.map_cons]

theorem set_append_length {α : Type} :
    ∀ (pre : List α) (x y : α) (rest : List α),
      (pre ++ x :: rest).set pre.length y = pre ++ y :: rest := by
  intro pre
  induction pre with
  | nil => intro x y rest; rfl
  | cons a pre ih =>
    intro x y rest
    simp only [List.cons_append, List.length_cons, List.set_cons_succ, ih]

theorem applyNew_dense_snd (M : Nat) (hash : String → Key) :
    ∀ (ts : List String) (vs : List Vec) (c : Cache) (pre : List (Option Vec)),
      vs.length = ts.length →
      (applyNew M hash
          (((ts.enumFrom pre.length).map (fun it => (it.2, it.1))).zip vs) c
          (pre ++ List.replicate ts.length none)).2 = pre ++ vs.map some := by
  intro ts
  induction ts with
  | nil =>
    intro vs c pre hlen
    rw [List.length_eq_zero.mp hlen]
    simp [applyNew]
  | cons t ts ih =>
    intro vs c pre hlen
    rcases vs with _ | ⟨v, vs⟩
    · simp at hlen
    · have hzip : ((((t :: ts).enumFrom pre.length).map
          (fun it => (it.2, it.1))).zip (v :: vs)) =
          ((t, pre.length), v) ::
            (((ts.enumFrom (pre.length + 1)).map (fun it => (it.2, it.1))).zip
              vs) := rfl
      rw [hzip]
      simp only [List.length_cons, List.replicate_succ, applyNew]
      have hset : (pre ++ none :: List.replicate ts.length none).set pre.length
          (some v) = (pre ++ [some v]) ++ List.replicate ts.length none := by
        rw [set_append_length pre none (some v) (List.replicate ts.length none)]
        simp
      rw [hset]
      have hpre : pre.length + 1 = (pre ++ [some v]).length := by simp
      rw [hpre]
      rw [ih vs (cachePut M (hash t) v c) (pre ++ [some v]) (by simpa using hlen)]
      simp

theorem applyNew_fst_keys_subset (M : Nat) (hash : String → Key) :
    ∀ (pairs : List ((String × Nat) × Vec)) (c : Cache) (bes : List (Option Vec))
      (k' : Key), k' ∈ keysOf ((applyNew M hash pairs c bes).1) →
      (∃ p ∈ pairs, k' = hash p.1.1) ∨ k' ∈ keysOf c := by
  intro pairs
  induction pairs with
  | nil => intro c bes k' h; exact Or.inr h
  | cons p rest ih =>
    intro c bes k' h
    simp only [applyNew] at h
    rcases ih (cachePut M (hash p.1.1) p.2 c) (bes.set p.1.2 (some p.2)) k' h with
      h1 | h1
    · obtain ⟨q, hq, rfl⟩ := h1
      exact Or.inl ⟨q, List.mem_cons_of_mem p hq, rfl⟩
    · rcases keysOf_cachePut_subset M (hash p.1.1) p.2 c k' h1 with h2 | h2
      · exact Or.inl ⟨p, List.mem_cons_self p rest, h2⟩
      · exact Or.inr h2

theorem retryGo_isSome_of_ok (oracle : Nat → Except ApiErr (List Vec)) :
    ∀ (rem a0 d : Nat), (∃ i < rem, ∃ vs, oracle (a0 + i) = Except.ok vs) →
      ∃ vs, (retryGo oracle a0 d rem).1 = some vs := by
  intro rem
  induction rem with
  | zero => intro a0 d h; obtain ⟨i, hi, _⟩ := h; omega
  | succ rem ih =>
    intro a0 d h
    rcases h0 : oracle a0 with e | vs
    · by_cases hr : rem = 0
      · obtain ⟨i, hi, vs, hvs⟩ := h
        have : i = 0 := by omega
        subst this
        rw [Nat.add_zero] at hvs
        rw [hvs] at h0
        cases h0
      · rw [retryGo, h0]
        simp only [if_neg hr]
        apply ih (a0 + 1) (d * 2)
        obtain ⟨i, hi, vs, hvs⟩ := h
        cases i with
        | zero =>
          rw [Nat.add_zero] at hvs
          rw [hvs] at h0
          cases h0
        | succ i =>
          exact ⟨i, by omega, vs, by
            rw [show a0 + 1 + i = a0 + (i + 1) by omega]
            exact hvs⟩
    · rw [retryGo, h0]
      exact ⟨vs, rfl⟩

theorem retryGo_some_src (oracle : Nat → Except ApiErr (List Vec)) :
    ∀ (rem a0 d : Nat) (vs : List Vec),
      (retryGo oracle a0 d rem).1 = some vs →
      ∃ i, oracle (a0 + i) = Except.ok vs := by
  intro rem
  induction rem with
  | zero => intro a0 d vs h; simp [retryGo] at h
  | succ rem ih =>
    intro a0 d vs h
    rcases h0 : oracle a0 with e | vs'
    · rw [retryGo, h0] at h
      by_cases hr : rem = 0
      · simp [hr] at h
      · simp only [if_neg hr] at h
        obtain ⟨i, hi⟩ := ih (a0 + 1) (d * 2) vs h
        exact ⟨i + 1, by
          rw [show a0 + (i + 1) = a0 + 1 + i by omega]
          exact hi⟩
    · rw [retryGo, h0] at h
      simp only [Option.some_inj] at h
      exact ⟨0, by rw [Nat.add_zero, h0, h]⟩

theorem genGroups_success_step (hash : String → Key) (M R : Nat) (O : Oracle)
    (b : List String) (rest : List (List String)) (n : Nat) (c : Cache)
    (hbne : b ≠ [])
    (hscan : scanBatch hash b 0 c =
      (List.replicate b.length none,
        (b.enumFrom 0).map (fun it => (it.2, it.1)), c))
    (vs : List Vec) (att : Nat) (ds : List Nat)
    (hretry : retryGroup (fun a => O n a) R = (some vs, att, ds)) :
    genGroups hash M R O (b :: rest) n c =
      ((applyNew M hash
          ((((b.enumFrom 0).map (fun it => (it.2, it.1)))).zip vs) c
          (List.replicate b.length none)).2 ++
        (genGroups hash M R O rest (n + 1)
          (applyNew M hash
            ((((b.enumFrom 0).map (fun it => (it.2, it.1)))).zip vs) c
            (List.replicate b.length none)).1).1,
        (genGroups hash M R O rest (n + 1)
          (applyNew M hash
            ((((b.enumFrom 0).map (fun it => (it.2, it.1)))).zip vs) c
            (List.replicate b.length none)).1).2) := by
  have hempty : (((b.enumFrom 0).map (fun it => (it.2, it.1)))).isEmpty = false := by
    cases b with
    | nil => exact absurd rfl hbne
    | cons t ts => rfl
  simp only [genGroups, hscan, hempty, Bool.false_eq_true, if_false, hretry]

theorem genGroups_prefix (hash : String → Key) (M R B : Nat) (O : Oracle)
    (hR : 1 ≤ R)
    (Hwf : ∀ i a vs, O i a = Except.ok vs → vs.length = B) :
    ∀ (gs : List (List String)) (gfail n : Nat) (c : Cache),
      (∀ t ∈ gs.flatten, hash t ∉ keysOf c) →
      ((gs.flatten).map hash).Nodup →
      (∀ i < gfail, ∀ b, gs.get? i = some b → b.length = B) →
      (∀ b ∈ gs, b ≠ []) →
      gfail < gs.length →
      (∀ i < gfail, ∃ a < R, ∃ vs, O (n + i) a = Except.ok vs) →
      (∀ a < R, ∃ e, O (n + gfail) a = Except.error e) →
      ∃ es c', genGroups hash M R O gs n c = (es, c') ∧
        es.length = gfail * B ∧ ∀ e ∈ es, e.isSome := by
  intro gs
  induction gs with
  | nil => intro gfail n c _ _ _ _ hg _ _; simp at hg
  | cons b rest ih =>
    intro gfail n c Hfresh Hnodup Hfull Hne hg Hpre Hfail
    have hbne : b ≠ [] := Hne b (List.mem_cons_self b rest)
    have hfreshb : ∀ t ∈ b, hash t ∉ keysOf c := fun t ht =>
      Hfresh t (List.mem_flatten.mpr ⟨b, List.mem_cons_self b rest, ht⟩)
    have hscan := scanBatch_fresh hash b 0 c hfreshb
    have huncne : ((b.enumFrom 0).map (fun it => (it.2, it.1))) ≠ [] := by
      cases b with
      | nil => exact absurd rfl hbne
      | cons t ts => simp [List.enumFrom_cons]
    cases gfail with
    | zero =>
      have hexh := retryGo_exhaust (fun a => O n a) R 0 1 (fun i hi => by
        rw [Nat.zero_add]
        have := Hfail i hi
        rw [Nat.add_zero] at this
        exact this)
      obtain ⟨m, hm⟩ : ∃ m, (retryGroup (fun a => O n a) R).2.1 = m + 1 := by
        refine ⟨R - 1, ?_⟩
        have h2 : (retryGroup (fun a => O n a) R).2.1 = R := hexh.2
        omega
      have hretry : retryGroup (fun a => O n a) R =
          (none, m + 1, (retryGroup (fun a => O n a) R).2.2) := by
        have h1 : (retryGroup (fun a => O n a) R).1 = none := hexh.1
        rw [← h1, ← hm]
      refine ⟨[], c, ?_, by simp, by simp⟩
      exact genGroups_gives_up hash M R O b rest n c _ _ _ hscan huncne m _ hretry
    | succ k =>
      obtain ⟨a0, ha0, vs0, hok0⟩ := Hpre 0 (Nat.succ_pos k)
      rw [Nat.add_zero] at hok0
      obtain ⟨vs, hvs⟩ := retryGo_isSome_of_ok (fun a => O n a) R 0 1
        ⟨a0, ha0, vs0, by rw [Nat.zero_add]; exact hok0⟩
      obtain ⟨isrc, hsrc⟩ := retryGo_some_src (fun a => O n a) R 0 1 vs hvs
      have hvsB : vs.length = B := Hwf n (0 + isrc) vs hsrc
      have hlenb : b.length = B := Hfull 0 (Nat.succ_pos k) b rfl
      have hretry : retryGroup (fun a => O n a) R =
          (some vs, (retryGroup (fun a => O n a) R).2.1,
            (retryGroup (fun a => O n a) R).2.2) := by
        rw [← hvs]
        rfl
      have hgg := genGroups_success_step hash M R O b rest n c hbne hscan vs
        ((retryGroup (fun a => O n a) R).2.1)
        ((retryGroup (fun a => O n a) R).2.2) hretry
      have hdense := applyNew_dense_snd M hash b vs c [] (by omega)
      simp only [List.nil_append, List.length_nil] at hdense
      set c2 := (applyNew M hash
        ((((b.enumFrom 0).map (fun it => (it.2, it.1)))).zip vs) c
        (List.replicate b.length none)).1 with hc2
      have hnodupApp : ((b.map hash).Nodup ∧ ((rest.flatten).map hash).Nodup ∧
          (b.map hash).Disjoint ((rest.flatten).map hash)) := by
        have hnd := Hnodup
        rw [List.flatten_cons, List.map_append, List.nodup_append] at hnd
        exact hnd
      have HfreshJoin : ∀ t ∈ rest.flatten, hash t ∉ keysOf c := fun t ht =>
        Hfresh t (by rw [List.flatten_cons]; exact List.mem_append_right b ht)
      have Hfresh' : ∀ t ∈ rest.flatten, hash t ∉ keysOf c2 := by
        intro t ht hmem
        rcases applyNew_fst_keys_subset M hash _ c _ (hash t) hmem with h1 | h1
        · obtain ⟨p, hp, hpt⟩ := h1
          have hp1 : p.1 ∈ (b.enumFrom 0).map (fun it => (it.2, it.1)) :=
            (List.of_mem_zip hp).1
          simp only [List.mem_map] at hp1
          obtain ⟨it, hit, hswap⟩ := hp1
          have hsnd : it.2 ∈ b := by
            have := List.mem_map_of_mem Prod.snd hit
            rw [List.enumFrom_map_snd] at this
            exact this
          have hbmem : hash t ∈ b.map hash := by
            rw [hpt, ← hswap]
            exact List.mem_map_of_mem hash hsnd
          exact hnodupApp.2.2 hbmem (List.mem_map_of_mem hash ht)
        · exact HfreshJoin t ht h1
      have Hfull' : ∀ i < k, ∀ b', rest.get? i = some b' → b'.length = B :=
        fun i hi b' hb' => Hfull (i + 1) (by omega) b' (by simpa using hb')
      have Hne' : ∀ b' ∈ rest, b' ≠ [] := fun b' hb' =>
        Hne b' (List.mem_cons_of_mem b hb')
      have hg' : k < rest.length := by
        simp only [List.length_cons] at hg
        omega
      have Hpre' : ∀ i < k, ∃ a < R, ∃ vs', O (n + 1 + i) a = Except.ok vs' := by
        intro i hi
        obtain ⟨a, ha, vs', hok⟩ := Hpre (i + 1) (by omega)
        exact ⟨a, ha, vs', by
          rw [show n + 1 + i = n + (i + 1) by omega]
          exact hok⟩
      have Hfail' : ∀ a < R, ∃ e, O (n + 1 + k) a = Except.error e := by
        intro a ha
        rw [show n + 1 + k = n + (k + 1) by omega]
        exact Hfail a ha
      obtain ⟨es', c', hes', hlen', hsome'⟩ :=
        ih k (n + 1) c2 Hfresh' hnodupApp.2.1 Hfull' Hne' hg' Hpre' Hfail'
      refine ⟨vs.map some ++ es', c', ?_, ?_, ?_⟩
      · rw [hgg, hdense, hes']
      · rw [List.length_append, List.length_map, hvsB, hlen', Nat.succ_mul]
        omega
      · intro e he
        rcases List.mem_append.mp he with h1 | h1
        · obtain ⟨v, _, rfl⟩ := List.mem_map.mp h1
          rfl
        · exact hsome' e h1

theorem toBatchesGo_congr {α : Type} :
    ∀ (f1 f2 n : Nat) (l : List α), l.length ≤ f1 → l.length ≤ f2 →
      toBatchesGo f1 n l = toBatchesGo f2 n l := by
  intro f1
  induction f1 with
  | zero =>
    intro f2 n l h1 h2
    have hl : l = [] := List.length_eq_zero.mp (by omega)
    subst hl
    cases f2 <;> cases n <;> rfl
  | succ f1 ih =>
    intro f2 n l h1 h2
    cases l with
    | nil => cases f2 <;> cases n <;> rfl
    | cons x xs =>
      cases f2 with
      | zero => simp at h2
      | succ f2 =>
        cases n with
        | zero => rfl
        | succ n =>
          rw [toBatchesGo, toBatchesGo]
          congr 1
          apply ih f2 (n + 1) (xs.drop n)
          · simp only [List.length_drop]
            simp only [List.length_cons] at h1
            omega
          · simp only [List.length_drop]
            simp only [List.length_cons] at h2
            omega

theorem toBatches_cons {α : Type} (n : Nat) (x : α) (xs : List α) :
    toBatches (n + 1) (x :: xs) =
      (x :: xs.take n) :: toBatches (n + 1) (xs.drop n) := by
  show toBatchesGo (x :: xs).length (n + 1) (x :: xs) = _
  simp only [List.length_cons]
  rw [toBatchesGo]
  congr 1
  exact toBatchesGo_congr xs.length (xs.drop n).length (n + 1) (xs.drop n)
    (by simp only [List.length_drop]; omega) (le_refl _)

theorem toBatches_nil {α : Type} (n : Nat) : toBatches n ([] : List α) = [] := by
  cases n <;> rfl

theorem toBatches_flatten {α : Type} (B : Nat) (hB : 1 ≤ B) :
    ∀ (l : List α), (toBatches B l).flatten = l := by
  obtain ⟨B', rfl⟩ : ∃ B', B = B' + 1 := ⟨B - 1, by omega⟩
  have haux : ∀ (len : Nat) (l : List α), l.length ≤ len →
      (toBatches (B' + 1) l).flatten = l := by
    intro len
    induction len with
    | zero =>
      intro l hl
      have : l = [] := List.length_eq_zero.mp (by omega)
      subst this
      rfl
    | succ len ih =>
      intro l hl
      cases l with
      | nil => rfl
      | cons x xs =>
        rw [toBatches_cons, List.flatten_cons]
        rw [ih (xs.drop B') (by
          simp only [List.length_drop]
          simp only [List.length_cons] at hl
          omega)]
        simp [List.take_append_drop]
  intro l
  exact haux l.length l (le_refl _)

theorem toBatches_ne_nil {α : Type} :
    ∀ (fuel n : Nat) (l b : List α), b ∈ toBatchesGo fuel n l → b ≠ [] := by
  intro fuel
  induction fuel with
  | zero => intro n l b hb; simp [toBatchesGo] at hb
  | succ fuel ih =>
    intro n l b hb
    match n, l with
    | _, [] => simp [toBatchesGo] at hb
    | 0, y :: ys => simp [toBatchesGo] at hb
    | n + 1, y :: ys =>
      rw [toBatchesGo] at hb
      rcases List.mem_cons.mp hb with rfl | hb
      · simp
      · exact ih (n + 1) (ys.drop n) b hb

theorem toBatches_full_prefix {α : Type} (B : Nat) (hB : 1 ≤ B) :
    ∀ (l : List α) (i : Nat) (b : List α),
      (toBatches B l).get? i = some b → i + 1 < (toBatches B l).length →
      b.length = B := by
  obtain ⟨B', rfl⟩ : ∃ B', B = B' + 1 := ⟨B - 1, by omega⟩
  have haux : ∀ (len : Nat) (l : List α) (i : Nat) (b : List α),
      l.length ≤ len → (toBatches (B' + 1) l).get? i = some b →
      i + 1 < (toBatches (B' + 1) l).length → b.length = B' + 1 := by
    intro len
    induction len with
    | zero =>
      intro l i b hl hb _
      have : l = [] := List.length_eq_zero.mp (by omega)
      subst this
      simp [toBatches_nil] at hb
    | succ len ih =>
      intro l i b hl hb hlen
      cases l with
      | nil => simp [toBatches_nil] at hb
      | cons x xs =>
        rw [toBatches_cons] at hb hlen
        cases i with
        | zero =>
          simp only [List.get?_cons_zero, Option.some_inj] at hb
          simp only [List.length_cons] at hlen
          have hrest : toBatches (B' + 1) (xs.drop B') ≠ [] := by
            intro hnil
            rw [hnil] at hlen
            simp at hlen
          have hdrop : xs.drop B' ≠ [] := by
            intro hnil
            rw [hnil, toBatches_nil] at hrest
            exact hrest rfl
          have hlt : B' < xs.length := by
            by_contra hge
            exact hdrop (List.drop_eq_nil_of_le (by omega))
          rw [← hb]
          simp only [List.length_cons, List.length_take]
          omega
        | succ j =>
          simp only [List.get?_cons_succ] at hb
          simp only [List.length_cons] at hlen
          exact ih (xs.drop B') j b (by
              simp only [List.length_drop]
              simp only [List.length_cons] at hl
              omega) hb (by omega)
  intro l i b hb hlen
  exact haux l.length l i b (le_refl _) hb hlen

theorem prefix_mul_le_sum {α : Type} :
    ∀ (gs : List (List α)) (g B : Nat),
      (∀ i < g, ∀ b, gs.get? i = some b → b.length = B) → g ≤ gs.length →
      g * B ≤ (gs.map List.length).sum := by
  intro gs
  induction gs with
  | nil =>
    intro g B _ hg
    simp only [List.length_nil, Nat.le_zero] at hg
    subst hg
    simp
  | cons b rest ih =>
    intro g B hfull hg
    cases g with
    | zero => simp
    | succ k =>
      have hb : b.length = B := hfull 0 (Nat.succ_pos k) b rfl
      have hk : k * B ≤ (rest.map List.length).sum :=
        ih k B (fun i hi b' hb' => hfull (i + 1) (by omega) b' (by simpa using hb'))
          (by simp only [List.length_cons] at hg; omega)
      simp only [List.map_cons, List.sum_cons, Nat.succ_mul]
      omega

theorem attach_take_map :
    ∀ (es : List (Option Vec)) (chunks : List Chunk),
      es.length ≤ chunks.length →
      ((attachEmbeddings chunks es).take es.length).map (·.embedding) = es := by
  intro es
  induction es with
  | nil => intro chunks _; simp
  | cons e es ih =>
    intro chunks hlen
    cases chunks with
    | nil => simp at hlen
    | cons ch cs =>
      simp only [attachEmbeddings, List.length_cons, List.take_succ_cons,
        List.map_cons]
      rw [ih cs (by simp only [List.length_cons] at hlen; omega)]

theorem attach_drop :
    ∀ (es : List (Option Vec)) (chunks : List Chunk),
      es.length ≤ chunks.length →
      (attachEmbeddings chunks es).drop es.length = chunks.drop es.length := by
  intro es
  induction es with
  | nil => intro chunks _; cases chunks <;> simp [attachEmbeddings]
  | cons e es ih =>
    intro chunks hlen
    cases chunks with
    | nil => simp at hlen
    | cons ch cs =>
      simp only [attachEmbeddings, List.length_cons, List.drop_succ_cons]
      exact ih cs (by simp only [List.length_cons] at hlen; omega)

theorem buildRecords_some_all (cs rs : List Chunk)
    (h : buildRecords cs = some rs) : ∀ ch ∈ cs, ch.embedding.isSome := by
  induction cs generalizing rs with
  | nil => intro ch hch; simp at hch
  | cons ch' cs ih =>
    intro ch hch
    rcases he : ch'.embedding with _ | v
    · simp [buildRecords, he] at h
    · simp only [buildRecords, he, Option.map_eq_some'] at h
      obtain ⟨rs', hrs', rfl⟩ := h
      rcases List.mem_cons.mp hch with rfl | hch
      · simp [he]
      · exact ih rs' hrs' ch hch

theorem dbProcess_stored_isSome (store : List Chunk → Except Unit Unit)
    (doc : Doc) (r : Chunk) (hr : r ∈ (dbProcess store doc).2) :
    r.embedding.isSome := by
  rcases h1 : (doc.chunks.isEmpty || doc.embeddings.isEmpty) with _ | _
  · by_cases h2 : doc.status = .failed
    · rw [dbProcess_skip_failed store doc h1 h2] at hr
      simp at hr
    · rcases hb : buildRecords doc.chunks with _ | recs
      · rw [dbProcess_missing_vector store doc h1 h2 hb] at hr
        simp at hr
      · rcases hs : store recs with e | u
        · rw [dbProcess_store_error store doc recs e h1 h2 hb hs] at hr
          simp at hr
        · rw [dbProcess_store_ok store doc recs h1 h2 hb hs] at hr
          exact buildRecords_some_all doc.chunks recs hb r
            (by rw [← buildRecords_some_eq doc.chunks recs hb]; exact hr)
  · rw [dbProcess_skip_novec store doc h1] at hr
    simp at hr

theorem dbProcess_skip_no_embeddings (store : List Chunk → Except Unit Unit)
    (doc : Doc) (h : doc.embeddings = []) : dbProcess store doc = (doc, []) := by
  apply dbProcess_skip_novec
  rw [h]
  simp

/-- C4: if the embedding provider permanently fails (all retries exhausted)
on request group `gfail` after every earlier group succeeded, the embedding
stage returns — without raising — exactly the embeddings of the first
`gfail` full request groups, i.e. of the first `gfail * batchSize` texts,
all of them real vectors; attaching them is positional, leaving every later
chunk without a vector; and the storage stage skips documents that have no
vectors at all while everything it ever stores carries a vector — so an
un-embedded chunk is never stored.  (Hypotheses: at least one retry is
configured, the API answers every request group with one vector per text of
a full group, and the chunk texts are distinct with fresh cache keys — the
run's normal situation.) -/
theorem api_failure_returns_prefix_and_unembedded_never_stored
    (hash : String → Key) (M R B : Nat) (O : Oracle) (texts : List String)
    (c0 : Cache) (gfail : Nat) (hB : 1 ≤ B) (hR : 1 ≤ R)
    (Hwf : ∀ i a vs, O i a = Except.ok vs → vs.length = B)
    (Hnodup : (texts.map hash).Nodup)
    (Hfresh : ∀ t ∈ texts, hash t ∉ keysOf c0)
    (hg : gfail < (toBatches B texts).length)
    (Hpre : ∀ i < gfail, ∃ a < R, ∃ vs, O i a = Except.ok vs)
    (Hfail : ∀ a < R, ∃ e, O gfail a = Except.error e) :
    ∃ es c', genEmbeddings hash M R B O texts c0 = (es, c') ∧
      es.length = gfail * B ∧ es.length ≤ texts.length ∧
      (∀ e ∈ es, e.isSome) ∧
      (∀ chunks : List Chunk, es.length ≤ chunks.length →
        ((attachEmbeddings chunks es).take es.length).map (·.embedding) = es ∧
          (attachEmbeddings chunks es).drop es.length = chunks.drop es.length) ∧
      (∀ store (doc : Doc), doc.embeddings = [] →
        dbProcess store doc = (doc, [])) ∧
      (∀ store (doc : Doc) r, r ∈ (dbProcess store doc).2 →
        r.embedding.isSome) := by
  have hflat : (toBatches B texts).flatten = texts := toBatches_flatten B hB texts
  obtain ⟨es, c', hes, hlen, hsome⟩ :=
    genGroups_prefix hash M R B O hR Hwf (toBatches B texts) gfail 0 c0
      (by rw [hflat]; exact Hfresh)
      (by rw [hflat]; exact Hnodup)
      (fun i hi b hb =>
        toBatches_full_prefix B hB texts i b hb (by omega))
      (fun b hb => toBatches_ne_nil texts.length B texts b hb)
      hg
      (fun i hi => by
        obtain ⟨a, ha, vs, hok⟩ := Hpre i hi
        exact ⟨a, ha, vs, by rw [Nat.zero_add]; exact hok⟩)
      (fun a ha => by
        rw [Nat.zero_add]
        exact Hfail a ha)
  refine ⟨es, c', hes, hlen, ?_, hsome, ?_, ?_, ?_⟩
  · rw [hlen]
    have hsum : gfail * B ≤ ((toBatches B texts).map List.length).sum :=
      prefix_mul_le_sum (toBatches B texts) gfail B
        (fun i hi b hb => toBatches_full_prefix B hB texts i b hb (by omega))
        (by omega)
    have hlenflat : texts.length = ((toBatches B texts).map List.length).sum := by
      rw [← hflat, List.length_flatten, hflat]
    omega
  · intro chunks hlc
    exact ⟨attach_take_map es chunks hlc, attach_drop es chunks hlc⟩
  · exact dbProcess_skip_no_embeddings
  · exact dbProcess_stored_isSome

/-- A two-group API for the C4 witness: group 0 answers with two vectors,
group 1 always fails. -/
def twoGroupOracle : Oracle := fun g _ =>
  if g = 0 then Except.ok [[1], [2]] else Except.error ApiErr.other

/-- Witness for C4: with request groups of size 2 over three distinct
texts, group 0 succeeds and group 1 exhausts its single retry; the stage
returns the two embeddings of the first group. -/
theorem api_failure_returns_prefix_witness :
    (∃ es c', genEmbeddings id 10000 1 2 twoGroupOracle ["a", "b", "c"] []
        = (es, c') ∧
      es.length = 1 * 2 ∧ es.length ≤ (["a", "b", "c"] : List String).length ∧
      (∀ e ∈ es, e.isSome) ∧
      (∀ chunks : List Chunk, es.length ≤ chunks.length →
        ((attachEmbeddings chunks es).take es.length).map (·.embedding) = es ∧
          (attachEmbeddings chunks es).drop es.length = chunks.drop es.length) ∧
      (∀ store (doc : Doc), doc.embeddings = [] →
        dbProcess store doc = (doc, [])) ∧
      (∀ store (doc : Doc) r, r ∈ (dbProcess store doc).2 →
        r.embedding.isSome)) ∧
      genEmbeddings id 10000 1 2 twoGroupOracle ["a", "b", "c"] [] =
        ([some [1], some [2]], [("a", [1]), ("b", [2])]) :=
  ⟨api_failure_returns_prefix_and_unembedded_never_stored id 10000 1 2
      twoGroupOracle ["a", "b", "c"] [] 1 (by decide) (by decide)
      (by
        intro i a vs h
        simp only [twoGroupOracle] at h
        by_cases hi : i = 0
        · rw [if_pos hi] at h
          injection h with h2
          rw [← h2]
          rfl
        · rw [if_neg hi] at h
          simp at h)
      (by decide) (by decide) (by decide)
      (by
        intro i hi
        have : i = 0 := by omega
        subst this
        exact ⟨0, by decide, [[1], [2]], rfl⟩)
      (by
        intro a ha
        exact ⟨ApiErr.other, rfl⟩),
    by decide⟩

/-- Witness for C6 with an always-rate-limited API and the default bound of
3: three attempts are made, the delays slept are `[1, 2]`, and the loop
returns exhaustion. -/
theorem api_retry_bounded_exponential_backoff_witness :
    ((retryGroup rateOracle 3).2.1 ≤ 3 ∧
      (retryGroup rateOracle 3).2.2 =
        (List.range ((retryGroup rateOracle 3).2.1 - 1)).map (fun i => 2 ^ i) ∧
      (∀ oracle' : Nat → Except ApiErr (List Vec),
        (∀ a, okEquiv (rateOracle a) (oracle' a)) →
          retryGroup oracle' 3 = retryGroup rateOracle 3) ∧
      ((∀ a < 3, ∃ e, rateOracle a = Except.error e) →
        (retryGroup rateOracle 3).1 = none ∧ (retryGroup rateOracle 3).2.1 = 3) ∧
      (∀ (O : Oracle) (hash : String → Key) (M : Nat) (batch : List String)
          (rest : List (List String)) (g : Nat) (c : Cache)
          (bes : List (Option Vec)) (unc : List (String × Nat)) (c1 : Cache),
        scanBatch hash batch 0 c = (bes, unc, c1) → unc ≠ [] →
          (retryGroup (fun a => O g a) 3).1 = none →
          genGroups hash M 3 O (batch :: rest) g c = ([], c1))) ∧
      retryGroup rateOracle 3 = (none, 3, [1, 2]) :=
  ⟨api_retry_bounded_exponential_backoff rateOracle 3 (by decide), by decide⟩

end EmbDB
